import Mathlib

/-!
# Verification of the common-pharmacophore search core

Shallow embedding of `openpharmacophore/pharmacophore/ligand_based/common_pharmacophore.py`
(classes `ScoringFunction`, `FeatureList`, `KSubList`, `KVariant`, `SurvivingBox`,
`CommonPharmacophoreFinder`), together with theorems about the embedded operations.

Numeric conventions: the distance matrices and scores that the Python code stores as
floats are embedded as rationals (`ℚ`); the genuinely real-valued quantities produced
by square roots (RMSD, Euclidean distances) live in `ℝ`.  Primitives that the sources
do not contain (`openpharmacophore.utils.maths`, `ChemFeatContainer` iteration,
`PriorityQueue.push`, `_get_pharmacophores`) are modelled from the spec and marked
as such in their doc comments; operations whose results do not depend on those
primitives take them as parameters.
-/

namespace OpenPharm

/-- A 3D point with rational coordinates (the embedding of one chemical-feature
position). -/
abbrev Point : Type := ℚ × ℚ × ℚ

/-- Modelled from the spec: `points_distance` lives in `openpharmacophore.utils.maths`,
which is absent from the sources; per the spec it is the pairwise Euclidean distance
between two 3D points. -/
noncomputable def points_distance (p q : Point) : ℝ :=
  Real.sqrt (((p.1 - q.1 : ℚ) : ℝ) ^ 2 + ((p.2.1 - q.2.1 : ℚ) : ℝ) ^ 2 +
    ((p.2.2 - q.2.2 : ℚ) : ℝ) ^ 2)

/-- The index pairs produced by the double loop of `FeatureList.distance_vector`:
`for site_i in range(n): for site_j in range(site_i + 1, n)`. -/
def lexPairs (n : ℕ) : List (ℕ × ℕ) :=
  (List.range n).flatMap (fun i => (List.range' (i + 1) (n - (i + 1))).map (fun j => (i, j)))

/-- `FeatureList.distance_vector`: for each conformer, the vector of inter-site
distances in the double-loop pair order.  The point-distance primitive `pdist` is a
parameter because `points_distance` belongs to a module that is absent from the
sources; the enumeration structure is the source's. -/
def distance_vector {α : Type} (pdist : Point → Point → α)
    (coords : List (List Point)) : List (List α) :=
  coords.map (fun conf =>
    (lexPairs (coords.headD []).length).map (fun ij =>
      pdist (conf.getD ij.1 ((0 : ℚ), (0 : ℚ), (0 : ℚ)))
        (conf.getD ij.2 ((0 : ℚ), (0 : ℚ), (0 : ℚ)))))

/-- `KVariant`: one occurrence of a k-point variant — the chosen feature indices and
the owning ligand index. -/
structure KVariant where
  feat_ind : List ℕ
  mol : ℕ
deriving DecidableEq, Repr

/-- `KSubList`: a k-point projection of a feature list.  `id` is the process-unique
identity assigned from the module counter `KSubList.ID` at creation (embedded by
explicit threading of the counter), `score` the optionally populated representative
score. -/
structure KSubList where
  distances : List ℚ
  mol_id : ℕ × ℕ
  feat_ind : List ℕ
  id : ℕ
  score : Option ℚ
deriving DecidableEq, Repr

/-- `FeatureList`: variant string, per-conformer inter-site distance rows, and
per-conformer feature coordinates. -/
structure FeatureList where
  variant : List Char
  distances : List (List ℚ)
  coords : List (List Point)
deriving DecidableEq, Inhabited

/-- `FeatureList.k_sublists`: one `KSubList` per conformer, whose distance vector is
the numpy fancy-indexing `self.distances[ii][feat_ind]`, i.e. the row entries at the
positions listed in `feat_ind`.  `startId` threads the module-level `KSubList.ID`
counter: the `ii`-th created sublist receives identity `startId + ii`. -/
def FeatureList.k_sublists (fl : FeatureList) (kv : KVariant) (startId : ℕ) :
    List KSubList :=
  (List.range fl.distances.length).map (fun ii =>
    { distances := kv.feat_ind.map (fun j => (fl.distances.getD ii []).getD j 0)
      mol_id := (kv.mol, ii)
      feat_ind := kv.feat_ind
      id := startId + ii
      score := none })

/-! ## Lemmas about the pair enumeration of `distance_vector` -/

theorem lexPairs_mem (n : ℕ) (p : ℕ × ℕ) :
    p ∈ lexPairs n ↔ p.1 < p.2 ∧ p.2 < n := by
  obtain ⟨i, j⟩ := p
  simp only [lexPairs, List.mem_flatMap, List.mem_map, List.mem_range, List.mem_range'_1,
    Prod.mk.injEq]
  constructor
  · rintro ⟨a, ha, j', hj', rfl, rfl⟩
    omega
  · rintro ⟨hij, hjn⟩
    exact ⟨i, by omega, j, ⟨by omega, by omega⟩, rfl, rfl⟩

/-- Summing `f i + 1` over a list. -/
theorem sum_map_add_one (l : List ℕ) (f : ℕ → ℕ) :
    (l.map (fun i => f i + 1)).sum = (l.map f).sum + l.length := by
  induction l with
  | nil => simp
  | cons x xs ih => simp [ih]; omega

theorem lexPairs_length (n : ℕ) : (lexPairs n).length = n * (n - 1) / 2 := by
  have key : ∀ m : ℕ, ((List.range m).map (fun i => m - (i + 1))).sum = m.choose 2 := by
    intro m
    induction m with
    | zero => simp
    | succ k ih =>
      have hmap : (List.range (k + 1)).map (fun i => (k + 1) - (i + 1)) =
          ((List.range k).map (fun i => (k - (i + 1)) + 1)) ++ [0] := by
        rw [List.range_succ, List.map_append, List.map_singleton]
        refine congrArg₂ (· ++ ·) ?_ (by simp)
        apply List.map_congr_left
        intro i hi
        rw [List.mem_range] at hi
        omega
      rw [hmap, List.sum_append, List.sum_singleton, sum_map_add_one,
        List.length_range, ih, Nat.choose_succ_succ, Nat.choose_one_right]
      have h2 : Nat.succ 1 = 2 := rfl
      rw [h2]
      omega
  have hlen : (lexPairs n).length = ((List.range n).map (fun i => n - (i + 1))).sum := by
    simp only [lexPairs, List.length_flatMap, Function.comp]
    congr 1
    apply List.map_congr_left
    intro i _
    simp
  rw [hlen, key, Nat.choose_two_right]

theorem pairwise_lt_range'_one (s n : ℕ) :
    List.Pairwise (· < ·) (List.range' s n) := by
  induction n generalizing s with
  | zero => exact List.Pairwise.nil
  | succ k ih =>
    rw [List.range'_succ]
    exact List.Pairwise.cons (fun y hy => by rw [List.mem_range'_1] at hy; omega) (ih (s + 1))

theorem lexPairs_sorted (n : ℕ) :
    List.Pairwise (fun p q : ℕ × ℕ => p.1 < q.1 ∨ (p.1 = q.1 ∧ p.2 < q.2))
      (lexPairs n) := by
  unfold lexPairs
  apply List.pairwise_flatMap.mpr
  refine ⟨?_, ?_⟩
  · intro i _
    apply List.Pairwise.map
    · intro a b hab
      exact Or.inr ⟨rfl, hab⟩
    · exact pairwise_lt_range'_one _ _
  · have h : List.Pairwise (· < ·) (List.range n) := List.pairwise_lt_range n
    apply h.imp ?_
    intro a b hab
    intro x hx y hy
    simp only [List.mem_map] at hx hy
    obtain ⟨jx, _, rfl⟩ := hx
    obtain ⟨jy, _, rfl⟩ := hy
    exact Or.inl hab

/-- C6: for every `FeatureList` built by `distance_vector` from coords of shape
`(n_conformers, n_feats, 3)`, the distance matrix has shape
`(n_conformers, n_feats * (n_feats - 1) / 2)`, and within each row the columns are
the Euclidean distances of the unordered feature pairs `(i, j)` with `i < j`,
enumerated in ascending lexicographic order of `(i, j)`. -/
theorem claim_C6 (coords : List (List Point)) (n : ℕ)
    (hreg : ∀ row ∈ coords, row.length = n) :
    (distance_vector points_distance coords).length = coords.length ∧
    (∀ drow ∈ distance_vector points_distance coords, drow.length = n * (n - 1) / 2) ∧
    (∀ p : ℕ × ℕ, p ∈ lexPairs n ↔ p.1 < p.2 ∧ p.2 < n) ∧
    List.Pairwise (fun p q : ℕ × ℕ => p.1 < q.1 ∨ (p.1 = q.1 ∧ p.2 < q.2)) (lexPairs n) ∧
    (∀ (ci : ℕ) (row : List Point), coords[ci]? = some row →
      (distance_vector points_distance coords)[ci]? =
        some ((lexPairs n).map (fun ij =>
          points_distance (row.getD ij.1 (0, 0, 0)) (row.getD ij.2 (0, 0, 0))))) := by
  have hn : coords ≠ [] → (coords.headD []).length = n := by
    intro h
    cases coords with
    | nil => exact absurd rfl h
    | cons c cs => exact hreg c (List.mem_cons_self c cs)
  refine ⟨by simp [distance_vector], ?_, lexPairs_mem n, lexPairs_sorted n, ?_⟩
  · intro drow hdrow
    simp only [distance_vector, List.mem_map] at hdrow
    obtain ⟨conf, hconf, rfl⟩ := hdrow
    rw [List.length_map, hn (List.ne_nil_of_mem hconf), lexPairs_length]
  · intro ci row hrow
    have hne : coords ≠ [] := by
      intro h
      rw [h] at hrow
      simp at hrow
    simp only [distance_vector, List.getElem?_map, hrow, Option.map_some', hn hne]

/-- A concrete one-conformer, two-feature coordinate array for the C6 witness. -/
def coordsC6 : List (List Point) := [[(0, 0, 0), (3, 4, 0)]]

theorem claim_C6_witness :
    (∀ row ∈ coordsC6, row.length = 2) ∧
    ((distance_vector points_distance coordsC6).length = coordsC6.length ∧
     (∀ drow ∈ distance_vector points_distance coordsC6, drow.length = 2 * (2 - 1) / 2) ∧
     (∀ p : ℕ × ℕ, p ∈ lexPairs 2 ↔ p.1 < p.2 ∧ p.2 < 2) ∧
     List.Pairwise (fun p q : ℕ × ℕ => p.1 < q.1 ∨ (p.1 = q.1 ∧ p.2 < q.2)) (lexPairs 2) ∧
     (∀ (ci : ℕ) (row : List Point), coordsC6[ci]? = some row →
       (distance_vector points_distance coordsC6)[ci]? =
         some ((lexPairs 2).map (fun ij =>
           points_distance (row.getD ij.1 (0, 0, 0)) (row.getD ij.2 (0, 0, 0)))))) :=
  ⟨by decide, claim_C6 coordsC6 2 (by decide)⟩

/-! ## C2: the number of distance columns of a `KSubList` -/

/-- A feature list with three features (three distance columns per conformer),
used for the C2 counterexample and witnesses. -/
def flC2 : FeatureList := ⟨['A', 'A', 'D'], [[1, 2, 3]], [[(0, 0, 0), (0, 0, 0), (0, 0, 0)]]⟩

/-- A 2-point variant occurrence in `flC2`. -/
def kvC2 : KVariant := ⟨[0, 1], 0⟩

/-- C2 counterexample: for a 2-point variant (`k = 2`), the sublists produced by
`k_sublists` carry `2` distance columns, not `k * (k - 1) / 2 = 1`: the numpy
expression `distances[ii][feat_ind]` selects one column per chosen feature index. -/
theorem claim_C2_counterexample :
    ¬ ∀ s ∈ FeatureList.k_sublists flC2 kvC2 1,
        s.distances.length = kvC2.feat_ind.length * (kvC2.feat_ind.length - 1) / 2 := by
  decide

/-- C2 (amended): each `KSubList` produced by `k_sublists` for a k-point variant
carries exactly `k = len(feat_ind)` distance columns (which coincides with
`k * (k - 1) / 2` only for `k = 3`); the recursion's `n_dims` is this length. -/
theorem claim_C2 (fl : FeatureList) (kv : KVariant) (startId : ℕ) :
    ∀ s ∈ fl.k_sublists kv startId, s.distances.length = kv.feat_ind.length := by
  intro s hs
  simp only [FeatureList.k_sublists, List.mem_map] at hs
  obtain ⟨ii, _, rfl⟩ := hs
  simp

theorem claim_C2_witness :
    (⟨[1, 2], (0, 0), [0, 1], 1, none⟩ : KSubList) ∈ FeatureList.k_sublists flC2 kvC2 1 ∧
    (⟨[1, 2], (0, 0), [0, 1], 1, none⟩ : KSubList).distances.length = kvC2.feat_ind.length :=
  ⟨by decide, claim_C2 flC2 kvC2 1 _ (by decide)⟩

/-! ## `ScoringFunction` (C7, C10) -/

/-- The view of a `FeatureList` used by `ScoringFunction`: per-conformer real
3D feature coordinates (`FeatureList.coords` with real entries). -/
structure FeatureListR where
  variant : List Char
  coords : List (List (ℝ × ℝ × ℝ))

/-- `ScoringFunction.__init__`: all four parameters are stored. -/
structure ScoringFunction where
  point_weight : ℝ
  vector_weight : ℝ
  rmsd_cutoff : ℝ
  cos_cutoff : ℝ

/-- One entry of `np.power(reference.coords[rc] - other.coords[oc], 2)` summed over
the three spatial components of a feature. -/
def sqDiffEntry (p q : ℝ × ℝ × ℝ) : ℝ :=
  (p.1 - q.1) ^ 2 + (p.2.1 - q.2.1) ^ 2 + (p.2.2 - q.2.2) ^ 2

/-- The `np.sqrt(np.power(a - b, 2).mean())` expression of
`ScoringFunction.point_score`: the square root of the mean of the squared
coordinate differences (three entries per matched feature). -/
noncomputable def rmsd (xs ys : List (ℝ × ℝ × ℝ)) : ℝ :=
  Real.sqrt ((List.zipWith sqDiffEntry xs ys).sum /
    (3 * (List.zipWith sqDiffEntry xs ys).length))

/-- `ScoringFunction.point_score`: `1 - RMSD / rmsd_cutoff`. -/
noncomputable def ScoringFunction.point_score (sf : ScoringFunction)
    (reference other : FeatureListR) (ref_conf other_conf : ℕ) : ℝ :=
  1 - rmsd (reference.coords.getD ref_conf []) (other.coords.getD other_conf []) /
    sf.rmsd_cutoff

/-- `ScoringFunction.vector_score`: the stub that always returns `0`. -/
def ScoringFunction.vector_score (_sf : ScoringFunction) : ℝ := 0

/-- `ScoringFunction.__call__`: point score plus vector score. -/
noncomputable def ScoringFunction.call (sf : ScoringFunction)
    (reference other : FeatureListR) (ref_conf other_conf : ℕ) : ℝ :=
  sf.point_score reference other ref_conf other_conf + sf.vector_score

/-- C7: the pairwise alignment score returned by `ScoringFunction.__call__` equals
`1 - RMSD / rmsd_cutoff` over the matched feature positions of the two conformers,
plus a vector-score component that is always zero. -/
theorem claim_C7 (sf : ScoringFunction) (reference other : FeatureListR) (rc oc : ℕ) :
    sf.call reference other rc oc =
      1 - rmsd (reference.coords.getD rc []) (other.coords.getD oc []) / sf.rmsd_cutoff ∧
    sf.vector_score = 0 := by
  constructor
  · simp [ScoringFunction.call, ScoringFunction.point_score, ScoringFunction.vector_score]
  · rfl

/-- C10: `ScoringFunction.__call__` does not depend on `point_weight` and
`vector_weight`: two instances differing only in the weights (same `rmsd_cutoff`
and `cos_cutoff`) return the same value on the same arguments. -/
theorem claim_C10 (pw vw pw' vw' rcut ccut : ℝ) (reference other : FeatureListR)
    (rc oc : ℕ) :
    ScoringFunction.call ⟨pw, vw, rcut, ccut⟩ reference other rc oc =
      ScoringFunction.call ⟨pw', vw', rcut, ccut⟩ reference other rc oc := rfl

/-! ## `_common_k_point_variants` (C5) -/

/-- `itertools.combinations`: all sorted `k`-element sublists of `l`, in the
lexicographic order produced by `itertools.combinations`. -/
def combinations : ℕ → List ℕ → List (List ℕ)
  | 0, _ => [[]]
  | _ + 1, [] => []
  | k + 1, x :: xs => (combinations k xs).map (fun c => x :: c) ++ combinations (k + 1) xs

/-- The variant string of one index combination: the loop
`for jj in k_var_ind: k_var += flist.variant[jj]`. -/
def kVarOf (vstr : List Char) (combo : List ℕ) : List Char :=
  combo.map (fun j => vstr.getD j ' ')

/-- Ordered-association-list lookup (embedding of Python dict access). -/
def alookup {α : Type} : List (List Char × α) → List Char → Option α
  | [], _ => none
  | (k, a) :: rest, v => if k = v then some a else alookup rest v

/-- Ordered-association-list update (embedding of Python dict item assignment:
a missing key is appended at the end, preserving insertion order). -/
def aupdate {α : Type} (f : Option α → α) : List (List Char × α) → List Char → List (List Char × α)
  | [], v => [(v, f none)]
  | (k, a) :: rest, v =>
    if k = v then (k, f (some a)) :: rest else (k, a) :: aupdate f rest v

/-- The mutable state of `_common_k_point_variants`: the `variant_count` dict and
the `k_variants` defaultdict. -/
structure VState where
  vcount : List (List Char × ℕ)
  kvars : List (List Char × List KVariant)
deriving DecidableEq

/-- The inner loop of `_common_k_point_variants` over one ligand's index
combinations, carrying the ligand-local `lig_variants` set. -/
def ligLoop (ii : ℕ) (vstr : List Char) :
    List (List ℕ) → List (List Char) → VState → VState
  | [], _, st => st
  | c :: cs, lig, st =>
    if kVarOf vstr c ∈ lig then
      ligLoop ii vstr cs lig
        ⟨st.vcount, aupdate (fun o => o.getD [] ++ [⟨c, ii⟩]) st.kvars (kVarOf vstr c)⟩
    else
      ligLoop ii vstr cs (kVarOf vstr c :: lig)
        ⟨aupdate (fun o => o.getD 0 + 1) st.vcount (kVarOf vstr c),
         aupdate (fun o => o.getD [] ++ [⟨c, ii⟩]) st.kvars (kVarOf vstr c)⟩

/-- The outer loop of `_common_k_point_variants` over the ligands. -/
def ligsLoop (n_points : ℕ) : ℕ → List FeatureList → VState → VState
  | _, [], st => st
  | ii, fl :: rest, st =>
    ligsLoop n_points (ii + 1) rest
      (ligLoop ii fl.variant (combinations n_points (List.range fl.variant.length)) [] st)

/-- `CommonPharmacophoreFinder._common_k_point_variants`: enumerate all k-point
variants of every ligand, then drop the variants whose distinct-ligand count is
below `min_actives`. -/
def common_k_point_variants (flists : List FeatureList) (n_points min_actives : ℕ) :
    List (List Char × List KVariant) :=
  let st := ligsLoop n_points 0 flists ⟨[], []⟩
  st.kvars.filter (fun p => min_actives ≤ (alookup st.vcount p.1).getD 0)

/-- Specification-side: the index combinations enumerated for one ligand. -/
def ligandCombos (vstr : List Char) (k : ℕ) : List (List ℕ) :=
  combinations k (List.range vstr.length)

/-- Specification-side: the k-variant strings of one ligand (with multiplicity). -/
def ligandKVars (vstr : List Char) (k : ℕ) : List (List Char) :=
  (ligandCombos vstr k).map (kVarOf vstr)

/-- Specification-side: the number of distinct ligands containing at least one
occurrence of the variant string `v`. -/
def specLigCount (flists : List FeatureList) (k : ℕ) (v : List Char) : ℕ :=
  (flists.filter (fun fl => decide (v ∈ ligandKVars fl.variant k))).length

/-- Specification-side: the full occurrence list of variant `v`, enumerating the
ligands from index `ii` on. -/
def specOccsFrom (k : ℕ) (v : List Char) : ℕ → List FeatureList → List KVariant
  | _, [] => []
  | ii, fl :: rest =>
    ((ligandCombos fl.variant k).filter (fun c => decide (kVarOf fl.variant c = v))).map
      (fun c => (⟨c, ii⟩ : KVariant)) ++ specOccsFrom k v (ii + 1) rest

/-- Specification-side: the full list of `(index-combination, ligand-index)`
occurrences of variant `v`. -/
def specOccs (flists : List FeatureList) (k : ℕ) (v : List Char) : List KVariant :=
  specOccsFrom k v 0 flists

/-- All k-variant strings generated by any ligand. -/
def allKVarStrings (flists : List FeatureList) (k : ℕ) : List (List Char) :=
  flists.flatMap (fun fl => ligandKVars fl.variant k)

/-- Optionally append occurrences to an association-list value (absent keys are
created on first append, so values are never `some []`). -/
def optApp (o : Option (List KVariant)) (add : List KVariant) : Option (List KVariant) :=
  if add = [] then o else some (o.getD [] ++ add)

/-- Optionally add to an association-list counter (absent keys are created on the
first bump, so values are never `some 0`). -/
def optBump (o : Option ℕ) (c : ℕ) : Option ℕ :=
  if c = 0 then o else some (o.getD 0 + c)

/-- The keys of an association list. -/
def keysOf {α : Type} (m : List (List Char × α)) : List (List Char) := m.map Prod.fst

theorem alookup_aupdate {α : Type} (f : Option α → α) (m : List (List Char × α))
    (v w : List Char) :
    alookup (aupdate f m v) w = if w = v then some (f (alookup m v)) else alookup m w := by
  induction m with
  | nil =>
    simp only [aupdate, alookup]
    by_cases h : w = v
    · subst h
      simp
    · rw [if_neg (fun hh => h hh.symm), if_neg h]
  | cons p rest ih =>
    obtain ⟨k, a⟩ := p
    by_cases hkv : k = v
    · subst hkv
      simp only [aupdate, if_pos rfl, alookup, if_pos rfl]
      by_cases hwk : w = k
      · subst hwk
        simp
      · rw [if_neg (fun hh => hwk hh.symm), if_neg hwk, if_neg (fun hh => hwk hh.symm)]
    · simp only [aupdate, if_neg hkv, alookup, ih]
      by_cases hwv : w = v
      · subst hwv
        simp [hkv]
      · rw [if_neg hwv, if_neg hwv]

theorem alookup_eq_none {α : Type} (m : List (List Char × α)) (v : List Char) :
    alookup m v = none ↔ v ∉ keysOf m := by
  induction m with
  | nil => simp [alookup, keysOf]
  | cons p rest ih =>
    obtain ⟨k, a⟩ := p
    by_cases hk : k = v
    · subst hk
      simp only [alookup, if_pos rfl, keysOf, List.map_cons, List.mem_cons]
      constructor
      · intro h
        exact absurd h (Option.some_ne_none a)
      · intro h
        exact absurd (Or.inl trivial) h
    · simp only [alookup, if_neg hk, keysOf, List.map_cons, List.mem_cons]
      rw [ih]
      simp only [keysOf]
      constructor
      · intro h hmem
        rcases hmem with h1 | h1
        · exact hk h1.symm
        · exact h h1
      · intro h h1
        exact h (Or.inr h1)

theorem alookup_of_mem {α : Type} (m : List (List Char × α)) (k : List Char) (a : α)
    (hnd : (keysOf m).Nodup) (hmem : (k, a) ∈ m) : alookup m k = some a := by
  induction m with
  | nil => simp at hmem
  | cons p rest ih =>
    obtain ⟨k0, a0⟩ := p
    simp only [keysOf, List.map_cons, List.nodup_cons] at hnd
    rcases List.mem_cons.mp hmem with heq | hmem'
    · rw [Prod.mk.injEq] at heq
      obtain ⟨rfl, rfl⟩ := heq
      simp [alookup]
    · have hk0 : ¬k0 = k := by
        intro h
        subst h
        exact hnd.1 (List.mem_map.mpr ⟨(k0, a), hmem', rfl⟩)
      simp only [alookup, if_neg hk0]
      exact ih hnd.2 hmem'

theorem mem_keysOf_aupdate {α : Type} (f : Option α → α) (m : List (List Char × α))
    (v w : List Char) :
    w ∈ keysOf (aupdate f m v) ↔ w ∈ keysOf m ∨ w = v := by
  induction m with
  | nil => simp [aupdate, keysOf]
  | cons p rest ih =>
    obtain ⟨k, a⟩ := p
    by_cases hkv : k = v
    · subst hkv
      simp only [aupdate, eq_self_iff_true, if_true, keysOf, List.map_cons, List.mem_cons]
      tauto
    · simp only [aupdate, if_neg hkv, keysOf, List.map_cons, List.mem_cons]
      simp only [keysOf] at ih
      rw [ih]
      tauto

theorem nodup_keysOf_aupdate {α : Type} (f : Option α → α) (m : List (List Char × α))
    (v : List Char) (hnd : (keysOf m).Nodup) : (keysOf (aupdate f m v)).Nodup := by
  induction m with
  | nil => simp [aupdate, keysOf]
  | cons p rest ih =>
    obtain ⟨k, a⟩ := p
    simp only [keysOf, List.map_cons, List.nodup_cons] at hnd
    by_cases hkv : k = v
    · subst hkv
      have hred : aupdate f ((k, a) :: rest) k = (k, f (some a)) :: rest := by
        simp [aupdate]
      rw [hred]
      simp only [keysOf, List.map_cons, List.nodup_cons]
      exact ⟨hnd.1, hnd.2⟩
    · simp only [aupdate, if_neg hkv, keysOf, List.map_cons, List.nodup_cons]
      refine ⟨?_, ih hnd.2⟩
      intro hmem
      rcases (mem_keysOf_aupdate f rest v k).mp hmem with h | h
      · exact hnd.1 h
      · exact hkv h

theorem alookup_filter {α : Type} (p : List Char → Bool) (m : List (List Char × α))
    (hnd : (keysOf m).Nodup) (v : List Char) :
    alookup (m.filter (fun q => p q.1)) v = if p v then alookup m v else none := by
  induction m with
  | nil => simp [alookup]
  | cons q rest ih =>
    obtain ⟨k, a⟩ := q
    simp only [keysOf, List.map_cons, List.nodup_cons] at hnd
    by_cases hk : p k
    · rw [List.filter_cons_of_pos (by simpa using hk)]
      by_cases hv : k = v
      · subst hv
        simp [alookup, hk]
      · simp only [alookup, if_neg hv]
        exact ih hnd.2
    · rw [List.filter_cons_of_neg (by simpa using hk)]
      rw [ih hnd.2]
      by_cases hv : k = v
      · subst hv
        have h1 : alookup rest k = none := (alookup_eq_none rest k).mpr hnd.1
        simp [alookup, h1, hk]
      · simp [alookup, hv]

theorem optApp_optApp (o : Option (List KVariant)) (a b : List KVariant) :
    optApp (optApp o a) b = optApp o (a ++ b) := by
  unfold optApp
  by_cases ha : a = []
  · subst ha
    simp
  · by_cases hb : b = []
    · subst hb
      simp [ha]
    · have hab : a ++ b ≠ [] := fun h => ha (List.append_eq_nil.mp h).1
      simp [ha, hb, hab, List.append_assoc]

theorem ligLoop_vcount (ii : ℕ) (vstr : List Char) (cs : List (List ℕ)) :
    ∀ (lig : List (List Char)) (st : VState) (v : List Char),
      alookup (ligLoop ii vstr cs lig st).vcount v =
        if v ∈ cs.map (kVarOf vstr) ∧ v ∉ lig
        then some ((alookup st.vcount v).getD 0 + 1)
        else alookup st.vcount v := by
  induction cs with
  | nil =>
    intro lig st v
    simp [ligLoop]
  | cons c cs ih =>
    intro lig st v
    by_cases hmem : kVarOf vstr c ∈ lig
    · rw [ligLoop, if_pos hmem, ih]
      refine if_congr ?_ rfl rfl
      have hE : v = kVarOf vstr c → v ∈ lig := fun h => by rw [h]; exact hmem
      simp only [List.map_cons, List.mem_cons]
      tauto
    · rw [ligLoop, if_neg hmem, ih]
      by_cases hvkv : v = kVarOf vstr c
      · have hnotin : ¬(v ∈ cs.map (kVarOf vstr) ∧ v ∉ kVarOf vstr c :: lig) := by
          rintro ⟨_, h2⟩
          exact h2 (by rw [hvkv]; exact List.mem_cons_self _ _)
        rw [if_neg hnotin]
        have hin : v ∈ (c :: cs).map (kVarOf vstr) ∧ v ∉ lig :=
          ⟨by simp [hvkv], by rw [hvkv]; exact hmem⟩
        rw [if_pos hin]
        show alookup (aupdate (fun o => o.getD 0 + 1) st.vcount (kVarOf vstr c)) v = _
        rw [alookup_aupdate, if_pos hvkv, hvkv]
      · have hlook : alookup (aupdate (fun o => o.getD 0 + 1) st.vcount (kVarOf vstr c)) v
            = alookup st.vcount v := by
          rw [alookup_aupdate, if_neg hvkv]
        show (if v ∈ cs.map (kVarOf vstr) ∧ v ∉ kVarOf vstr c :: lig
              then some ((alookup (aupdate (fun o => o.getD 0 + 1) st.vcount
                (kVarOf vstr c)) v).getD 0 + 1)
              else alookup (aupdate (fun o => o.getD 0 + 1) st.vcount (kVarOf vstr c)) v) = _
        rw [hlook]
        refine if_congr ?_ rfl rfl
        simp only [List.map_cons, List.mem_cons]
        tauto

theorem ligLoop_kvars (ii : ℕ) (vstr : List Char) (cs : List (List ℕ)) :
    ∀ (lig : List (List Char)) (st : VState) (v : List Char),
      alookup (ligLoop ii vstr cs lig st).kvars v =
        optApp (alookup st.kvars v)
          ((cs.filter (fun c => decide (kVarOf vstr c = v))).map
            (fun c => (⟨c, ii⟩ : KVariant))) := by
  induction cs with
  | nil =>
    intro lig st v
    simp [ligLoop, optApp]
  | cons c cs ih =>
    intro lig st v
    by_cases hmem : kVarOf vstr c ∈ lig
    · rw [ligLoop, if_pos hmem, ih]
      by_cases hc : kVarOf vstr c = v
      · rw [List.filter_cons_of_pos (by simpa using hc), List.map_cons]
        show optApp (alookup (aupdate (fun o => o.getD [] ++ [⟨c, ii⟩]) st.kvars
          (kVarOf vstr c)) v) _ = _
        rw [alookup_aupdate, if_pos hc.symm, hc]
        unfold optApp
        by_cases hrest : (cs.filter (fun c => decide (kVarOf vstr c = v))).map
            (fun c => (⟨c, ii⟩ : KVariant)) = []
        · simp [hrest]
        · simp [hrest, List.append_assoc]
      · rw [List.filter_cons_of_neg (by simpa using hc)]
        show optApp (alookup (aupdate (fun o => o.getD [] ++ [⟨c, ii⟩]) st.kvars
          (kVarOf vstr c)) v) _ = _
        rw [alookup_aupdate, if_neg (fun h => hc h.symm)]
    · rw [ligLoop, if_neg hmem, ih]
      by_cases hc : kVarOf vstr c = v
      · rw [List.filter_cons_of_pos (by simpa using hc), List.map_cons]
        show optApp (alookup (aupdate (fun o => o.getD [] ++ [⟨c, ii⟩]) st.kvars
          (kVarOf vstr c)) v) _ = _
        rw [alookup_aupdate, if_pos hc.symm, hc]
        unfold optApp
        by_cases hrest : (cs.filter (fun c => decide (kVarOf vstr c = v))).map
            (fun c => (⟨c, ii⟩ : KVariant)) = []
        · simp [hrest]
        · simp [hrest, List.append_assoc]
      · rw [List.filter_cons_of_neg (by simpa using hc)]
        show optApp (alookup (aupdate (fun o => o.getD [] ++ [⟨c, ii⟩]) st.kvars
          (kVarOf vstr c)) v) _ = _
        rw [alookup_aupdate, if_neg (fun h => hc h.symm)]

theorem ligLoop_kvars_nodup (ii : ℕ) (vstr : List Char) (cs : List (List ℕ)) :
    ∀ (lig : List (List Char)) (st : VState),
      (keysOf st.kvars).Nodup → (keysOf (ligLoop ii vstr cs lig st).kvars).Nodup := by
  induction cs with
  | nil =>
    intro lig st h
    simpa [ligLoop] using h
  | cons c cs ih =>
    intro lig st h
    by_cases hmem : kVarOf vstr c ∈ lig
    · rw [ligLoop, if_pos hmem]
      exact ih _ _ (nodup_keysOf_aupdate _ _ _ h)
    · rw [ligLoop, if_neg hmem]
      exact ih _ _ (nodup_keysOf_aupdate _ _ _ h)

theorem ligsLoop_kvars_nodup (k : ℕ) (fls : List FeatureList) :
    ∀ (ii : ℕ) (st : VState),
      (keysOf st.kvars).Nodup → (keysOf (ligsLoop k ii fls st).kvars).Nodup := by
  induction fls with
  | nil =>
    intro ii st h
    simpa [ligsLoop] using h
  | cons fl rest ih =>
    intro ii st h
    rw [ligsLoop]
    exact ih _ _ (ligLoop_kvars_nodup _ _ _ _ _ h)

theorem ligsLoop_vcount (k : ℕ) (fls : List FeatureList) :
    ∀ (ii : ℕ) (st : VState) (v : List Char),
      alookup (ligsLoop k ii fls st).vcount v =
        optBump (alookup st.vcount v) (specLigCount fls k v) := by
  induction fls with
  | nil =>
    intro ii st v
    simp [ligsLoop, specLigCount, optBump]
  | cons fl rest ih =>
    intro ii st v
    rw [ligsLoop, ih]
    have hlig := ligLoop_vcount ii fl.variant
      (combinations k (List.range fl.variant.length)) [] st v
    by_cases hv : v ∈ (combinations k (List.range fl.variant.length)).map (kVarOf fl.variant)
    · have hcond : v ∈ (combinations k (List.range fl.variant.length)).map (kVarOf fl.variant)
          ∧ v ∉ ([] : List (List Char)) := ⟨hv, List.not_mem_nil v⟩
      rw [hlig, if_pos hcond]
      have hcnt : specLigCount (fl :: rest) k v = specLigCount rest k v + 1 := by
        have hp : decide (v ∈ ligandKVars fl.variant k) = true := by
          simp only [ligandKVars, ligandCombos]
          simpa using hv
        simp [specLigCount, List.filter_cons, hp]
      rw [hcnt]
      unfold optBump
      by_cases hr : specLigCount rest k v = 0
      · simp [hr]
      · rw [if_neg hr, if_neg (by omega : ¬specLigCount rest k v + 1 = 0)]
        simp only [Option.getD_some]
        congr 1
        omega
    · have hcond : ¬(v ∈ (combinations k (List.range fl.variant.length)).map
          (kVarOf fl.variant) ∧ v ∉ ([] : List (List Char))) := fun hh => hv hh.1
      rw [hlig, if_neg hcond]
      have hcnt : specLigCount (fl :: rest) k v = specLigCount rest k v := by
        have hp : decide (v ∈ ligandKVars fl.variant k) = false := by
          simp only [ligandKVars, ligandCombos]
          simpa using hv
        simp [specLigCount, List.filter_cons, hp]
      rw [hcnt]

theorem ligsLoop_kvars (k : ℕ) (fls : List FeatureList) :
    ∀ (ii : ℕ) (st : VState) (v : List Char),
      alookup (ligsLoop k ii fls st).kvars v =
        optApp (alookup st.kvars v) (specOccsFrom k v ii fls) := by
  induction fls with
  | nil =>
    intro ii st v
    simp [ligsLoop, specOccsFrom, optApp]
  | cons fl rest ih =>
    intro ii st v
    rw [ligsLoop, ih, ligLoop_kvars, optApp_optApp]
    rfl

theorem vcount_final (flists : List FeatureList) (k : ℕ) (v : List Char) :
    (alookup (ligsLoop k 0 flists ⟨[], []⟩).vcount v).getD 0 = specLigCount flists k v := by
  have h0 : alookup (⟨[], []⟩ : VState).vcount v = none := rfl
  rw [ligsLoop_vcount, h0]
  unfold optBump
  by_cases h : specLigCount flists k v = 0
  · simp [h]
  · simp [h]

theorem specOccsFrom_ne_nil (k : ℕ) (v : List Char) (fls : List FeatureList) :
    ∀ ii : ℕ, 0 < specLigCount fls k v → specOccsFrom k v ii fls ≠ [] := by
  induction fls with
  | nil =>
    intro ii h
    simp [specLigCount] at h
  | cons fl rest ih =>
    intro ii h
    by_cases hv : v ∈ ligandKVars fl.variant k
    · obtain ⟨c, hc, hcv⟩ := List.mem_map.mp (by rw [ligandKVars] at hv; exact hv)
      intro habs
      rw [specOccsFrom] at habs
      rcases List.append_eq_nil.mp habs with ⟨h1, _⟩
      have hcf : c ∈ (ligandCombos fl.variant k).filter
          (fun c => decide (kVarOf fl.variant c = v)) := by
        rw [List.mem_filter]
        exact ⟨hc, by simpa using hcv⟩
      have hmm := List.mem_map_of_mem (fun c => (⟨c, ii⟩ : KVariant)) hcf
      rw [h1] at hmm
      simp at hmm
    · have hcnt : specLigCount (fl :: rest) k v = specLigCount rest k v := by
        have hp : decide (v ∈ ligandKVars fl.variant k) = false := by
          simpa using hv
        simp [specLigCount, List.filter_cons, hp]
      rw [hcnt] at h
      intro habs
      rw [specOccsFrom] at habs
      rcases List.append_eq_nil.mp habs with ⟨_, h2⟩
      exact ih (ii + 1) h h2

theorem mem_allKVarStrings_of_specOccs (k : ℕ) (v : List Char) (fls : List FeatureList) :
    ∀ ii : ℕ, specOccsFrom k v ii fls ≠ [] → v ∈ allKVarStrings fls k := by
  induction fls with
  | nil =>
    intro ii h
    simp [specOccsFrom] at h
  | cons fl rest ih =>
    intro ii h
    rw [specOccsFrom] at h
    by_cases h1 : (ligandCombos fl.variant k).filter
        (fun c => decide (kVarOf fl.variant c = v)) = []
    · rw [h1] at h
      simp only [List.map_nil, List.nil_append] at h
      have hrest := ih (ii + 1) h
      rw [allKVarStrings] at hrest ⊢
      rw [List.flatMap_cons]
      exact List.mem_append_right _ hrest
    · obtain ⟨c, hc⟩ := List.exists_mem_of_ne_nil _ h1
      rw [List.mem_filter] at hc
      have hvmem : v ∈ ligandKVars fl.variant k := by
        rw [ligandKVars]
        exact List.mem_map.mpr ⟨c, hc.1, by simpa using hc.2⟩
      rw [allKVarStrings, List.flatMap_cons]
      exact List.mem_append_left _ hvmem

/-- C5: `_common_k_point_variants` counts, per distinct k-variant string, the number
of distinct ligands containing at least one occurrence (a ligand with several
occurrences of the same variant string is counted once); after full enumeration
every variant whose distinct-ligand count is below `min_actives` is absent from the
returned mapping while every qualifying variant retains its full list of
`(index-combination, ligand-index)` occurrences. -/
theorem claim_C5 (flists : List FeatureList) (n_points min_actives : ℕ) (v : List Char) :
    ((alookup (ligsLoop n_points 0 flists ⟨[], []⟩).vcount v).getD 0
        = specLigCount flists n_points v) ∧
    (specLigCount flists n_points v < min_actives →
      alookup (common_k_point_variants flists n_points min_actives) v = none) ∧
    (min_actives ≤ specLigCount flists n_points v →
      0 < specLigCount flists n_points v →
      alookup (common_k_point_variants flists n_points min_actives) v
        = some (specOccs flists n_points v)) := by
  have hnd : (keysOf (ligsLoop n_points 0 flists ⟨[], []⟩).kvars).Nodup :=
    ligsLoop_kvars_nodup _ _ _ _ (by simp [keysOf])
  have hcount := vcount_final flists n_points v
  have hfilter := alookup_filter
    (fun w => decide (min_actives ≤
      (alookup (ligsLoop n_points 0 flists ⟨[], []⟩).vcount w).getD 0))
    (ligsLoop n_points 0 flists ⟨[], []⟩).kvars hnd v
  refine ⟨hcount, ?_, ?_⟩
  · intro hlt
    rw [common_k_point_variants, hfilter, hcount]
    have hno : ¬(min_actives ≤ specLigCount flists n_points v) := by omega
    simp [hno]
  · intro hge hpos
    rw [common_k_point_variants, hfilter, hcount]
    rw [if_pos (by simpa using hge)]
    have hk := ligsLoop_kvars n_points flists 0 ⟨[], []⟩ v
    have h0 : alookup (⟨[], []⟩ : VState).kvars v = none := rfl
    rw [hk, h0]
    unfold optApp
    rw [if_neg (specOccsFrom_ne_nil n_points v flists 0 hpos)]
    simp [specOccs]

/-- Two concrete two-feature, zero-conformer feature lists for the C5 witness:
variants `AA` and `AD`. -/
def flistsC5 : List FeatureList := [⟨['A', 'A'], [], []⟩, ⟨['A', 'D'], [], []⟩]

theorem claim_C5_witness :
    (specLigCount flistsC5 2 ['A', 'A'] < 2 ∧
      alookup (common_k_point_variants flistsC5 2 2) ['A', 'A'] = none) ∧
    (1 ≤ specLigCount flistsC5 2 ['A', 'A'] ∧ 0 < specLigCount flistsC5 2 ['A', 'A'] ∧
      alookup (common_k_point_variants flistsC5 2 1) ['A', 'A']
        = some (specOccs flistsC5 2 ['A', 'A'])) :=
  ⟨⟨by decide, (claim_C5 flistsC5 2 2 ['A', 'A']).2.1 (by decide)⟩,
   ⟨by decide, by decide, (claim_C5 flistsC5 2 1 ['A', 'A']).2.2 (by decide) (by decide)⟩⟩

/-! ## `_recursive_partitioning` (C1, C8) -/

/-- `SurvivingBox`: accumulator of one bin's sublists and distinct ligand indices.
`__init__` sets `id = []`; no code in the source ever writes to `id`, and
`__eq__` compares only the `id` fields. -/
structure SurvivingBox where
  sublists : List KSubList
  ligands : Finset ℕ
  id : List ℤ
deriving DecidableEq

/-- Modelled from the spec: `nearest_bins(value, bin_size)` (in the missing
`openpharmacophore.utils.maths` module) returns the two adjacent bin edges, lower
and upper, that `value` falls between. -/
def nearest_bins (value bin_size : ℚ) : ℚ × ℚ :=
  (⌊value / bin_size⌋ * bin_size, ⌊value / bin_size⌋ * bin_size + bin_size)

/-- Append a sublist to the box of bin `key` and record its ligand, creating the
bin at the end (Python dict insertion order) when absent; the box `id` stays `[]`. -/
def binsInsert (key : ℚ) (s : KSubList) :
    List (ℚ × SurvivingBox) → List (ℚ × SurvivingBox)
  | [] => [(key, ⟨[s], {s.mol_id.1}, []⟩)]
  | (k, b) :: rest =>
    if k = key then (k, ⟨b.sublists ++ [s], insert s.mol_id.1 b.ligands, b.id⟩) :: rest
    else (k, b) :: binsInsert key s rest

/-- The binning loop of `_recursive_partitioning_util`: every sublist joins its two
nearest bins by its `dim`-th distance, unless either bin edge reaches `max_dist`. -/
def makeBins (bin_size max_dist : ℚ) (dim : ℕ) (subs : List KSubList) :
    List (ℚ × SurvivingBox) :=
  subs.foldl (fun acc s =>
    if max_dist ≤ (nearest_bins (s.distances.getD dim 0) bin_size).1 ∨
        max_dist ≤ (nearest_bins (s.distances.getD dim 0) bin_size).2
    then acc
    else binsInsert (nearest_bins (s.distances.getD dim 0) bin_size).2 s
      (binsInsert (nearest_bins (s.distances.getD dim 0) bin_size).1 s acc)) []

/-- `box in boxes` under `SurvivingBox.__eq__` (comparison of `id` fields only). -/
def boxMem (b : SurvivingBox) (boxes : List SurvivingBox) : Bool :=
  boxes.any (fun b2 => decide (b2.id = b.id))

/-- The body of the `for box in bins.values()` loop of
`_recursive_partitioning_util`; `recCall` is the recursive call into the next
dimension. -/
def rpuStep (min_actives n_dims dim : ℕ)
    (recCall : List KSubList → List SurvivingBox → List SurvivingBox)
    (bx : List SurvivingBox) (b : SurvivingBox) : List SurvivingBox :=
  if min_actives ≤ b.ligands.card then
    if dim < n_dims - 1 then recCall b.sublists bx
    else if boxMem b bx then bx else bx ++ [b]
  else bx

/-- `_recursive_partitioning_util`, with the remaining recursion depth as
structural fuel (every source-level call site has `fuel = n_dims - dim`). -/
def rpuGo (bin_size max_dist : ℚ) (min_actives n_dims : ℕ) :
    ℕ → ℕ → List KSubList → List SurvivingBox → List SurvivingBox
  | 0, _, _, boxes => boxes
  | fuel + 1, dim, subs, boxes =>
    ((makeBins bin_size max_dist dim subs).map Prod.snd).foldl
      (rpuStep min_actives n_dims dim
        (fun subs2 bx2 => rpuGo bin_size max_dist min_actives n_dims fuel (dim + 1) subs2 bx2))
      boxes

/-- `CommonPharmacophoreFinder._recursive_partitioning`: run the utility from
dimension `0` with `n_dims` equal to the length of the first sublist's distance
vector, and return the sublist collections of the surviving boxes. -/
def recursive_partitioning (bin_size max_dist : ℚ) (subs : List KSubList)
    (min_actives : ℕ) : List (List KSubList) :=
  match subs with
  | [] => []
  | s :: rest =>
    (rpuGo bin_size max_dist min_actives s.distances.length s.distances.length 0
      (s :: rest) []).map (fun b => b.sublists)

/-- Specification-side: there is a chain of surviving bins down to the last
dimension (the paths along which `_recursive_partitioning_util` reaches an
append). -/
def survives (bin_size max_dist : ℚ) (min_actives n_dims : ℕ) :
    ℕ → ℕ → List KSubList → Prop
  | 0, _, _ => False
  | fuel + 1, dim, subs =>
    ∃ b ∈ (makeBins bin_size max_dist dim subs).map Prod.snd,
      min_actives ≤ b.ligands.card ∧
      (dim < n_dims - 1 →
        survives bin_size max_dist min_actives n_dims fuel (dim + 1) b.sublists)

theorem binsInsert_id (key : ℚ) (s : KSubList) (m : List (ℚ × SurvivingBox))
    (hm : ∀ p ∈ m, p.2.id = []) : ∀ p ∈ binsInsert key s m, p.2.id = [] := by
  induction m with
  | nil =>
    intro p hp
    simp only [binsInsert, List.mem_singleton] at hp
    subst hp
    rfl
  | cons q rest ih =>
    obtain ⟨k, b⟩ := q
    intro p hp
    rw [binsInsert] at hp
    by_cases hk : k = key
    · rw [if_pos hk] at hp
      rcases List.mem_cons.mp hp with h | h
      · subst h
        exact hm (k, b) (List.mem_cons_self _ _)
      · exact hm p (List.mem_cons_of_mem _ h)
    · rw [if_neg hk] at hp
      rcases List.mem_cons.mp hp with h | h
      · subst h
        exact hm (k, b) (List.mem_cons_self _ _)
      · exact ih (fun q hq => hm q (List.mem_cons_of_mem _ hq)) p h

theorem makeBins_id (bs md : ℚ) (dim : ℕ) (subs : List KSubList) :
    ∀ p ∈ makeBins bs md dim subs, p.2.id = [] := by
  have haux : ∀ (l : List KSubList) (acc : List (ℚ × SurvivingBox)),
      (∀ p ∈ acc, p.2.id = []) →
      ∀ p ∈ l.foldl (fun acc s =>
        if md ≤ (nearest_bins (s.distances.getD dim 0) bs).1 ∨
            md ≤ (nearest_bins (s.distances.getD dim 0) bs).2
        then acc
        else binsInsert (nearest_bins (s.distances.getD dim 0) bs).2 s
          (binsInsert (nearest_bins (s.distances.getD dim 0) bs).1 s acc)) acc,
        p.2.id = [] := by
    intro l
    induction l with
    | nil =>
      intro acc hacc p hp
      exact hacc p hp
    | cons s rest ih =>
      intro acc hacc p hp
      rw [List.foldl_cons] at hp
      refine ih _ ?_ p hp
      by_cases hcut : md ≤ (nearest_bins (s.distances.getD dim 0) bs).1 ∨
          md ≤ (nearest_bins (s.distances.getD dim 0) bs).2
      · rw [if_pos hcut]
        exact hacc
      · rw [if_neg hcut]
        exact binsInsert_id _ _ _ (binsInsert_id _ _ _ hacc)
  intro p hp
  exact haux subs [] (by simp) p hp

theorem mapBins_id (bs md : ℚ) (dim : ℕ) (subs : List KSubList) :
    ∀ b ∈ (makeBins bs md dim subs).map Prod.snd, b.id = [] := by
  intro b hb
  obtain ⟨p, hp, rfl⟩ := List.mem_map.mp hb
  exact makeBins_id bs md dim subs p hp

theorem rpuGo_stay (bs md : ℚ) (ma nd : ℕ) :
    ∀ (fuel dim : ℕ) (subs : List KSubList) (boxes : List SurvivingBox),
      boxes ≠ [] → (∀ x ∈ boxes, x.id = []) →
      rpuGo bs md ma nd fuel dim subs boxes = boxes := by
  intro fuel
  induction fuel with
  | zero =>
    intro dim subs boxes _ _
    rw [rpuGo]
  | succ fuel ih =>
    intro dim subs boxes hne hnil
    rw [rpuGo]
    have haux : ∀ (bl : List SurvivingBox), (∀ b ∈ bl, b.id = []) →
        ∀ (bx : List SurvivingBox), bx ≠ [] → (∀ x ∈ bx, x.id = []) →
        List.foldl (rpuStep ma nd dim
          (fun subs2 bx2 => rpuGo bs md ma nd fuel (dim + 1) subs2 bx2)) bx bl = bx := by
      intro bl
      induction bl with
      | nil =>
        intro _ bx _ _
        rfl
      | cons b rest ihb =>
        intro hbl bx hbne hbnil
        rw [List.foldl_cons]
        have hb0 : b.id = [] := hbl b (List.mem_cons_self _ _)
        have hstep : rpuStep ma nd dim
            (fun subs2 bx2 => rpuGo bs md ma nd fuel (dim + 1) subs2 bx2) bx b = bx := by
          unfold rpuStep
          by_cases hpass : ma ≤ b.ligands.card
          · rw [if_pos hpass]
            by_cases hdim : dim < nd - 1
            · rw [if_pos hdim]
              exact ih (dim + 1) b.sublists bx hbne hbnil
            · rw [if_neg hdim]
              have hbm : boxMem b bx = true := by
                obtain ⟨x, hx⟩ := List.exists_mem_of_ne_nil bx hbne
                exact List.any_eq_true.mpr
                  ⟨x, hx, decide_eq_true (by rw [hbnil x hx, hb0])⟩
              rw [hbm]
              simp
          · rw [if_neg hpass]
        rw [hstep]
        exact ihb (fun x hx => hbl x (List.mem_cons_of_mem _ hx)) bx hbne hbnil
    exact haux _ (mapBins_id bs md dim subs) boxes hne hnil

theorem rpuGo_extend (bs md : ℚ) (ma nd : ℕ) :
    ∀ (fuel dim : ℕ) (subs : List KSubList) (boxes : List SurvivingBox),
      ∃ extra, rpuGo bs md ma nd fuel dim subs boxes = boxes ++ extra ∧
        ∀ x ∈ extra, x.id = [] := by
  intro fuel
  induction fuel with
  | zero =>
    intro dim subs boxes
    exact ⟨[], by rw [rpuGo]; simp, by simp⟩
  | succ fuel ih =>
    intro dim subs boxes
    rw [rpuGo]
    have haux : ∀ (bl : List SurvivingBox), (∀ b ∈ bl, b.id = []) →
        ∀ (bx : List SurvivingBox),
        ∃ extra, List.foldl (rpuStep ma nd dim
          (fun subs2 bx2 => rpuGo bs md ma nd fuel (dim + 1) subs2 bx2)) bx bl
            = bx ++ extra ∧ ∀ x ∈ extra, x.id = [] := by
      intro bl
      induction bl with
      | nil =>
        intro _ bx
        exact ⟨[], by simp, by simp⟩
      | cons b rest ihb =>
        intro hbl bx
        rw [List.foldl_cons]
        have hb0 : b.id = [] := hbl b (List.mem_cons_self _ _)
        have hstep : ∃ e1, rpuStep ma nd dim
            (fun subs2 bx2 => rpuGo bs md ma nd fuel (dim + 1) subs2 bx2) bx b
              = bx ++ e1 ∧ ∀ x ∈ e1, x.id = [] := by
          unfold rpuStep
          by_cases hpass : ma ≤ b.ligands.card
          · rw [if_pos hpass]
            by_cases hdim : dim < nd - 1
            · rw [if_pos hdim]
              exact ih (dim + 1) b.sublists bx
            · rw [if_neg hdim]
              by_cases hbm : boxMem b bx
              · rw [if_pos hbm]
                exact ⟨[], by simp, by simp⟩
              · rw [if_neg hbm]
                refine ⟨[b], rfl, ?_⟩
                intro x hx
                rw [List.mem_singleton] at hx
                subst hx
                exact hb0
          · rw [if_neg hpass]
            exact ⟨[], by simp, by simp⟩
        obtain ⟨e1, he1, he1nil⟩ := hstep
        rw [he1]
        obtain ⟨e2, he2, he2nil⟩ :=
          ihb (fun x hx => hbl x (List.mem_cons_of_mem _ hx)) (bx ++ e1)
        rw [he2, List.append_assoc]
        refine ⟨e1 ++ e2, rfl, ?_⟩
        intro x hx
        rcases List.mem_append.mp hx with h | h
        · exact he1nil x h
        · exact he2nil x h
    exact haux _ (mapBins_id bs md dim subs) boxes

theorem rpuGo_short (bs md : ℚ) (ma nd : ℕ) :
    ∀ (fuel dim : ℕ) (subs : List KSubList) (boxes : List SurvivingBox),
      boxes.length ≤ 1 → (∀ x ∈ boxes, x.id = []) →
      (rpuGo bs md ma nd fuel dim subs boxes).length ≤ 1 := by
  intro fuel
  induction fuel with
  | zero =>
    intro dim subs boxes hlen _
    rw [rpuGo]
    exact hlen
  | succ fuel ih =>
    intro dim subs boxes hlen hnil
    rw [rpuGo]
    have haux : ∀ (bl : List SurvivingBox), (∀ b ∈ bl, b.id = []) →
        ∀ (bx : List SurvivingBox), bx.length ≤ 1 → (∀ x ∈ bx, x.id = []) →
        (List.foldl (rpuStep ma nd dim
          (fun subs2 bx2 => rpuGo bs md ma nd fuel (dim + 1) subs2 bx2)) bx bl).length ≤ 1 ∧
        ∀ x ∈ List.foldl (rpuStep ma nd dim
          (fun subs2 bx2 => rpuGo bs md ma nd fuel (dim + 1) subs2 bx2)) bx bl, x.id = [] := by
      intro bl
      induction bl with
      | nil =>
        intro _ bx hbx hbxnil
        exact ⟨hbx, hbxnil⟩
      | cons b rest ihb =>
        intro hbl bx hbx hbxnil
        rw [List.foldl_cons]
        have hb0 : b.id = [] := hbl b (List.mem_cons_self _ _)
        have hstep : (rpuStep ma nd dim
            (fun subs2 bx2 => rpuGo bs md ma nd fuel (dim + 1) subs2 bx2) bx b).length ≤ 1 ∧
            ∀ x ∈ rpuStep ma nd dim
              (fun subs2 bx2 => rpuGo bs md ma nd fuel (dim + 1) subs2 bx2) bx b,
              x.id = [] := by
          unfold rpuStep
          by_cases hpass : ma ≤ b.ligands.card
          · rw [if_pos hpass]
            by_cases hdim : dim < nd - 1
            · rw [if_pos hdim]
              refine ⟨ih (dim + 1) b.sublists bx hbx hbxnil, ?_⟩
              intro x hx
              have hx' : x ∈ rpuGo bs md ma nd fuel (dim + 1) b.sublists bx := hx
              obtain ⟨extra, hex, hexnil⟩ := rpuGo_extend bs md ma nd fuel (dim + 1) b.sublists bx
              rw [hex] at hx'
              rcases List.mem_append.mp hx' with h | h
              · exact hbxnil x h
              · exact hexnil x h
            · rw [if_neg hdim]
              by_cases hbm : boxMem b bx
              · rw [if_pos hbm]
                exact ⟨hbx, hbxnil⟩
              · rw [if_neg hbm]
                have hbxnil' : bx = [] := by
                  rcases bx with _ | ⟨x, bx'⟩
                  · rfl
                  · exfalso
                    apply hbm
                    exact List.any_eq_true.mpr
                      ⟨x, List.mem_cons_self _ _,
                        decide_eq_true (by rw [hbxnil x (List.mem_cons_self _ _), hb0])⟩
                subst hbxnil'
                refine ⟨by simp, ?_⟩
                intro x hx
                rw [List.nil_append, List.mem_singleton] at hx
                subst hx
                exact hb0
          · rw [if_neg hpass]
            exact ⟨hbx, hbxnil⟩
        exact ihb (fun x hx => hbl x (List.mem_cons_of_mem _ hx)) _ hstep.1 hstep.2
    exact (haux _ (mapBins_id bs md dim subs) boxes hlen hnil).1

theorem foldl_rpuStep_stay (bs md : ℚ) (ma nd fuel dim : ℕ) :
    ∀ (bl : List SurvivingBox), (∀ b ∈ bl, b.id = []) →
    ∀ (bx : List SurvivingBox), bx ≠ [] → (∀ x ∈ bx, x.id = []) →
    List.foldl (rpuStep ma nd dim
      (fun subs2 bx2 => rpuGo bs md ma nd fuel (dim + 1) subs2 bx2)) bx bl = bx := by
  intro bl
  induction bl with
  | nil =>
    intro _ bx _ _
    rfl
  | cons b rest ihb =>
    intro hbl bx hbne hbnil
    rw [List.foldl_cons]
    have hb0 : b.id = [] := hbl b (List.mem_cons_self _ _)
    have hstep : rpuStep ma nd dim
        (fun subs2 bx2 => rpuGo bs md ma nd fuel (dim + 1) subs2 bx2) bx b = bx := by
      unfold rpuStep
      by_cases hpass : ma ≤ b.ligands.card
      · rw [if_pos hpass]
        by_cases hdim : dim < nd - 1
        · rw [if_pos hdim]
          exact rpuGo_stay bs md ma nd fuel (dim + 1) b.sublists bx hbne hbnil
        · rw [if_neg hdim]
          have hbm : boxMem b bx = true := by
            obtain ⟨x, hx⟩ := List.exists_mem_of_ne_nil bx hbne
            exact List.any_eq_true.mpr ⟨x, hx, decide_eq_true (by rw [hbnil x hx, hb0])⟩
          rw [hbm]
          simp
      · rw [if_neg hpass]
    rw [hstep]
    exact ihb (fun x hx => hbl x (List.mem_cons_of_mem _ hx)) bx hbne hbnil

theorem rpuGo_ne_nil_iff (bs md : ℚ) (ma nd : ℕ) :
    ∀ (fuel dim : ℕ) (subs : List KSubList),
      rpuGo bs md ma nd fuel dim subs [] ≠ [] ↔
        survives bs md ma nd fuel dim subs := by
  intro fuel
  induction fuel with
  | zero =>
    intro dim subs
    rw [rpuGo, survives]
    simp
  | succ fuel ih =>
    intro dim subs
    rw [rpuGo, survives]
    have haux : ∀ (bl : List SurvivingBox), (∀ b ∈ bl, b.id = []) →
        (List.foldl (rpuStep ma nd dim
          (fun subs2 bx2 => rpuGo bs md ma nd fuel (dim + 1) subs2 bx2)) [] bl ≠ [] ↔
        ∃ b ∈ bl, ma ≤ b.ligands.card ∧
          (dim < nd - 1 → rpuGo bs md ma nd fuel (dim + 1) b.sublists [] ≠ [])) := by
      intro bl
      induction bl with
      | nil =>
        intro _
        simp
      | cons b rest ihb =>
        intro hbl
        rw [List.foldl_cons]
        have hb0 : b.id = [] := hbl b (List.mem_cons_self _ _)
        by_cases hpass : ma ≤ b.ligands.card
        · by_cases hdim : dim < nd - 1
          · have hstep : rpuStep ma nd dim
                (fun subs2 bx2 => rpuGo bs md ma nd fuel (dim + 1) subs2 bx2) [] b =
                rpuGo bs md ma nd fuel (dim + 1) b.sublists [] := by
              unfold rpuStep
              rw [if_pos hpass, if_pos hdim]
            rw [hstep]
            by_cases hrec : rpuGo bs md ma nd fuel (dim + 1) b.sublists [] = []
            · rw [hrec, ihb (fun x hx => hbl x (List.mem_cons_of_mem _ hx))]
              constructor
              · rintro ⟨b2, hb2, h⟩
                exact ⟨b2, List.mem_cons_of_mem _ hb2, h⟩
              · rintro ⟨b2, hb2, hcard, hrec2⟩
                rcases List.mem_cons.mp hb2 with rfl | hb2'
                · exact absurd hrec (hrec2 hdim)
                · exact ⟨b2, hb2', hcard, hrec2⟩
            · have hnn : ∀ x ∈ rpuGo bs md ma nd fuel (dim + 1) b.sublists [], x.id = [] := by
                intro x hx
                obtain ⟨extra, hex, hexnil⟩ :=
                  rpuGo_extend bs md ma nd fuel (dim + 1) b.sublists []
                rw [List.nil_append] at hex
                rw [hex] at hx
                exact hexnil x hx
              rw [foldl_rpuStep_stay bs md ma nd fuel dim rest
                (fun x hx => hbl x (List.mem_cons_of_mem _ hx)) _ hrec hnn]
              constructor
              · intro _
                exact ⟨b, List.mem_cons_self _ _, hpass, fun _ => hrec⟩
              · intro _
                exact hrec
          · have hstep : rpuStep ma nd dim
                (fun subs2 bx2 => rpuGo bs md ma nd fuel (dim + 1) subs2 bx2) [] b = [b] := by
              unfold rpuStep
              rw [if_pos hpass, if_neg hdim]
              have hbm : boxMem b [] = false := rfl
              rw [hbm]
              simp
            rw [hstep]
            rw [foldl_rpuStep_stay bs md ma nd fuel dim rest
              (fun x hx => hbl x (List.mem_cons_of_mem _ hx)) [b] (by simp)
              (by intro x hx; rw [List.mem_singleton] at hx; subst hx; exact hb0)]
            constructor
            · intro _
              exact ⟨b, List.mem_cons_self _ _, hpass, fun h => absurd h hdim⟩
            · intro _
              simp
        · have hstep : rpuStep ma nd dim
              (fun subs2 bx2 => rpuGo bs md ma nd fuel (dim + 1) subs2 bx2) [] b = [] := by
            unfold rpuStep
            rw [if_neg hpass]
          rw [hstep, ihb (fun x hx => hbl x (List.mem_cons_of_mem _ hx))]
          constructor
          · rintro ⟨b2, hb2, h⟩
            exact ⟨b2, List.mem_cons_of_mem _ hb2, h⟩
          · rintro ⟨b2, hb2, hcard, hrec2⟩
            rcases List.mem_cons.mp hb2 with rfl | hb2'
            · exact absurd hcard hpass
            · exact ⟨b2, hb2', hcard, hrec2⟩
    rw [haux _ (mapBins_id bs md dim subs)]
    constructor
    · rintro ⟨b, hb, hcard, himp⟩
      exact ⟨b, hb, hcard, fun h => (ih (dim + 1) b.sublists).mp (himp h)⟩
    · rintro ⟨b, hb, hcard, himp⟩
      exact ⟨b, hb, hcard, fun h => (ih (dim + 1) b.sublists).mpr (himp h)⟩

theorem survives_mono (bs md : ℚ) (nd ma1 ma2 : ℕ) (h : ma1 ≤ ma2) :
    ∀ (fuel dim : ℕ) (subs : List KSubList),
      survives bs md ma2 nd fuel dim subs → survives bs md ma1 nd fuel dim subs := by
  intro fuel
  induction fuel with
  | zero =>
    intro dim subs hs
    rw [survives] at hs
    exact hs.elim
  | succ fuel ih =>
    intro dim subs hs
    rw [survives] at hs ⊢
    obtain ⟨b, hb, hcard, himp⟩ := hs
    exact ⟨b, hb, le_trans h hcard, fun hd => ih (dim + 1) b.sublists (himp hd)⟩

/-- C8 (amended): increasing `min_actives` never increases the number of common
variants nor the number of surviving boxes; for `_common_k_point_variants` the
result at the larger threshold is moreover a sublist (same entries, same order) of
the result at the smaller one.  (The surviving-box *lists* themselves need not be
included one in the other; see the counterexample.) -/
theorem claim_C8 (flists : List FeatureList) (n_points : ℕ) (bs md : ℚ)
    (subs : List KSubList) (ma1 ma2 : ℕ) (h : ma1 ≤ ma2) :
    ((common_k_point_variants flists n_points ma2).Sublist
      (common_k_point_variants flists n_points ma1)) ∧
    ((common_k_point_variants flists n_points ma2).length ≤
      (common_k_point_variants flists n_points ma1).length) ∧
    ((recursive_partitioning bs md subs ma2).length ≤
      (recursive_partitioning bs md subs ma1).length) := by
  have hsub : (common_k_point_variants flists n_points ma2).Sublist
      (common_k_point_variants flists n_points ma1) := by
    rw [common_k_point_variants, common_k_point_variants]
    apply List.monotone_filter_right
    intro p hp
    simp only [decide_eq_true_eq] at hp ⊢
    omega
  refine ⟨hsub, hsub.length_le, ?_⟩
  cases subs with
  | nil =>
    rw [recursive_partitioning]
    simp
  | cons s rest =>
    rw [recursive_partitioning, recursive_partitioning, List.length_map, List.length_map]
    by_cases h2 : rpuGo bs md ma2 s.distances.length s.distances.length 0 (s :: rest) [] = []
    · rw [h2]
      simp
    · have hs2 : survives bs md ma2 s.distances.length s.distances.length 0 (s :: rest) :=
        (rpuGo_ne_nil_iff bs md ma2 s.distances.length s.distances.length 0 (s :: rest)).mp h2
      have hs1 := survives_mono bs md s.distances.length ma1 ma2 h
        s.distances.length 0 (s :: rest) hs2
      have h1 : rpuGo bs md ma1 s.distances.length s.distances.length 0 (s :: rest) [] ≠ [] :=
        (rpuGo_ne_nil_iff bs md ma1 s.distances.length s.distances.length 0 (s :: rest)).mpr hs1
      have hlen2 : (rpuGo bs md ma2 s.distances.length s.distances.length 0
          (s :: rest) []).length ≤ 1 :=
        rpuGo_short bs md ma2 s.distances.length s.distances.length 0 (s :: rest) []
          (by simp) (by simp)
      have hlen1 : 0 < (rpuGo bs md ma1 s.distances.length s.distances.length 0
          (s :: rest) []).length := List.length_pos.mpr h1
      omega

/-- A sublist of ligand 0 with single distance 0.5 (bins 0 and 1). -/
def sC1a : KSubList := ⟨[1 / 2], (0, 0), [0], 1, none⟩

/-- A sublist of ligand 1 with single distance 5.5 (bins 5 and 6). -/
def sC1b : KSubList := ⟨[11 / 2], (1, 0), [0], 2, none⟩

/-- C1 (code-bug evaluation): on two sublists that land in disjoint surviving bins
(distances 0.5 and 5.5, `min_actives = 1`), `_recursive_partitioning` returns only
the first surviving box.  Every `SurvivingBox` keeps its `__init__` value
`id = []`, so `SurvivingBox.__eq__` holds between any two boxes and the
`box not in boxes` membership guard blocks every append after the first — the
distinct second box is dropped, not just duplicates of the first. -/
theorem claim_C1 :
    recursive_partitioning 1 15 [sC1a, sC1b] 1 = [[sC1a]] ∧
    recursive_partitioning 1 15 [sC1a, sC1b] 1 ≠ [[sC1a], [sC1b]] := by
  have heval : recursive_partitioning 1 15 [sC1a, sC1b] 1 = [[sC1a]] := by
    norm_num [recursive_partitioning, rpuGo, rpuStep, makeBins, nearest_bins, binsInsert,
      boxMem, sC1a, sC1b]
  refine ⟨heval, ?_⟩
  rw [heval]
  intro hco
  have hlen := congrArg List.length hco
  simp at hlen

/-- A sublist of ligand 0 with single distance 0.2 (bins 0 and 1). -/
def sC8a : KSubList := ⟨[1 / 5], (0, 0), [0], 1, none⟩

/-- A sublist of ligand 1 with single distance 5.2 (bins 5 and 6). -/
def sC8b : KSubList := ⟨[26 / 5], (1, 0), [0], 2, none⟩

/-- A sublist of ligand 2 with single distance 5.4 (bins 5 and 6). -/
def sC8c : KSubList := ⟨[27 / 5], (2, 0), [0], 3, none⟩

/-- C8 counterexample: the surviving boxes at `min_actives = 2` are not a subset of
those at `min_actives = 1`: at the smaller threshold the first surviving bin (the
box of the lone ligand-0 sublist) occupies the single box slot, while at the larger
threshold the two-ligand bin does. -/
theorem claim_C8_counterexample :
    recursive_partitioning 1 15 [sC8a, sC8b, sC8c] 2 = [[sC8b, sC8c]] ∧
    recursive_partitioning 1 15 [sC8a, sC8b, sC8c] 1 = [[sC8a]] ∧
    ¬∀ box ∈ recursive_partitioning 1 15 [sC8a, sC8b, sC8c] 2,
        box ∈ recursive_partitioning 1 15 [sC8a, sC8b, sC8c] 1 := by
  have h2 : recursive_partitioning 1 15 [sC8a, sC8b, sC8c] 2 = [[sC8b, sC8c]] := by
    norm_num [recursive_partitioning, rpuGo, rpuStep, makeBins, nearest_bins, binsInsert,
      boxMem, sC8a, sC8b, sC8c]
  have h1 : recursive_partitioning 1 15 [sC8a, sC8b, sC8c] 1 = [[sC8a]] := by
    norm_num [recursive_partitioning, rpuGo, rpuStep, makeBins, nearest_bins, binsInsert,
      boxMem, sC8a, sC8b, sC8c]
  refine ⟨h2, h1, ?_⟩
  intro hall
  have hmem := hall [sC8b, sC8c] (by rw [h2]; exact List.mem_singleton_self _)
  rw [h1, List.mem_singleton] at hmem
  have hlen := congrArg List.length hmem
  simp at hlen

theorem claim_C8_witness :
    (1 ≤ 2) ∧
    ((common_k_point_variants flistsC5 2 2).Sublist (common_k_point_variants flistsC5 2 1) ∧
     (common_k_point_variants flistsC5 2 2).length ≤
       (common_k_point_variants flistsC5 2 1).length ∧
     (recursive_partitioning 1 15 [sC8a, sC8b, sC8c] 2).length ≤
       (recursive_partitioning 1 15 [sC8a, sC8b, sC8c] 1).length) :=
  ⟨by decide, claim_C8 flistsC5 2 1 15 [sC8a, sC8b, sC8c] 1 2 (by decide)⟩

/-! ## `_box_top_representative` (C3, C4) -/

/-- The `scores` memo dict: symmetric id-pair key (smaller id first) to the
memoized alignment score. -/
abbrev Memo : Type := List ((ℕ × ℕ) × ℚ)

/-- Python dict lookup on the memo (entries are prepended, and a key is only
inserted when absent, so the first hit is the value). -/
def mlookup : Memo → ℕ × ℕ → Option ℚ
  | [], _ => none
  | (k, s) :: rest, key => if k = key then some s else mlookup rest key

/-- The symmetric memo key: `idx_1, idx_2` with the smaller id first. -/
def scoreKey (i j : ℕ) : ℕ × ℕ := if j < i then (j, i) else (i, j)

/-- The inner `for other in box` loop of `_box_top_representative` for one
candidate `ref`: skip same-ligand members, look up or compute and memoize the
pairwise score, veto the candidate (`none`) on any negative score, otherwise
return the total.  `sfn` is `self.scoring_fn` applied through the feature-list
lookup: it receives the two `mol_id` pairs `(ligand, conformer)`. -/
def candidateScore (sfn : ℕ × ℕ → ℕ × ℕ → ℚ) (ref : KSubList) :
    List KSubList → Memo → Option ℚ × Memo
  | [], m => (some 0, m)
  | o :: rest, m =>
    if ref.mol_id.1 = o.mol_id.1 then candidateScore sfn ref rest m
    else
      match mlookup m (scoreKey ref.id o.id) with
      | some s =>
        if s < 0 then (none, m)
        else
          match candidateScore sfn ref rest m with
          | (none, m2) => (none, m2)
          | (some t, m2) => (some (s + t), m2)
      | none =>
        if sfn ref.mol_id o.mol_id < 0 then
          (none, (scoreKey ref.id o.id, sfn ref.mol_id o.mol_id) :: m)
        else
          match candidateScore sfn ref rest
            ((scoreKey ref.id o.id, sfn ref.mol_id o.mol_id) :: m) with
          | (none, m2) => (none, m2)
          | (some t, m2) => (some (sfn ref.mol_id o.mol_id + t), m2)

/-- The outer `for ref in box` loop of `_box_top_representative`: track the best
`(reference, total_score)` pair (`best_score` starts at `-inf`, embedded as
`none`; strict `>` keeps the first of equals). -/
def boxTopAux (sfn : ℕ × ℕ → ℕ × ℕ → ℚ) (box : List KSubList) :
    List KSubList → Memo → Option (KSubList × ℚ) → Option (KSubList × ℚ) × Memo
  | [], m, best => (best, m)
  | ref :: rest, m, best =>
    match candidateScore sfn ref box m with
    | (none, m2) => boxTopAux sfn box rest m2 best
    | (some t, m2) =>
      match best with
      | none => boxTopAux sfn box rest m2 (some (ref, t))
      | some (r, s) =>
        if s < t then boxTopAux sfn box rest m2 (some (ref, t))
        else boxTopAux sfn box rest m2 (some (r, s))

/-- `CommonPharmacophoreFinder._box_top_representative`: the winning sublist with
its `score` field set (`none` when every candidate is excluded), plus the updated
memo. -/
def box_top_representative (sfn : ℕ × ℕ → ℕ × ℕ → ℚ) (box : List KSubList)
    (m : Memo) : Option KSubList × Memo :=
  match boxTopAux sfn box box m none with
  | (none, m2) => (none, m2)
  | (some (r, s), m2) => (some { r with score := some s }, m2)

/-- C4: when computing a candidate's total score, box members of the same ligand
as the candidate (same `mol_id[0]`) are skipped entirely: the inner loop computes
the same result (score and memo) as if they were removed from the box. -/
theorem claim_C4 (sfn : ℕ × ℕ → ℕ × ℕ → ℚ) (ref : KSubList) (l : List KSubList)
    (m : Memo) :
    candidateScore sfn ref l m =
      candidateScore sfn ref (l.filter (fun o => decide (ref.mol_id.1 ≠ o.mol_id.1))) m := by
  induction l generalizing m with
  | nil => rfl
  | cons o rest ih =>
    by_cases hsame : ref.mol_id.1 = o.mol_id.1
    · rw [candidateScore, if_pos hsame, List.filter_cons_of_neg (by simp [hsame])]
      exact ih m
    · rw [List.filter_cons_of_pos (by simp [hsame])]
      rw [candidateScore, if_neg hsame, candidateScore, if_neg hsame]
      cases hml : mlookup m (scoreKey ref.id o.id) with
      | some s =>
        dsimp only
        by_cases hs : s < 0
        · rw [if_pos hs, if_pos hs]
        · rw [if_neg hs, if_neg hs, ih m]
      | none =>
        dsimp only
        by_cases hs : sfn ref.mol_id o.mol_id < 0
        · rw [if_pos hs, if_pos hs]
        · rw [if_neg hs, if_neg hs,
            ih ((scoreKey ref.id o.id, sfn ref.mol_id o.mol_id) :: m)]

theorem scoreKey_cases (i j k l : ℕ) (h : scoreKey i j = scoreKey k l) :
    (i = k ∧ j = l) ∨ (i = l ∧ j = k) := by
  unfold scoreKey at h
  split_ifs at h <;> (rw [Prod.mk.injEq] at h; omega)

/-- The memo is consistent with the scoring function on the box: any entry stored
at the symmetric key of two cross-ligand box members is that pair's score. -/
def MemoConsistent (sfn : ℕ × ℕ → ℕ × ℕ → ℚ) (box : List KSubList) (m : Memo) : Prop :=
  ∀ a ∈ box, ∀ b ∈ box, a.mol_id.1 ≠ b.mol_id.1 →
    ∀ v, mlookup m (scoreKey a.id b.id) = some v → v = sfn a.mol_id b.mol_id

theorem candidateScore_spec (sfn : ℕ × ℕ → ℕ × ℕ → ℚ) (box : List KSubList)
    (hsym : ∀ a b, sfn a b = sfn b a)
    (hinj : ∀ a ∈ box, ∀ b ∈ box, a.id = b.id → a = b)
    (ref : KSubList) (href : ref ∈ box) :
    ∀ (l : List KSubList), (∀ x ∈ l, x ∈ box) → ∀ (m : Memo),
      MemoConsistent sfn box m →
      MemoConsistent sfn box (candidateScore sfn ref l m).2 ∧
      ((candidateScore sfn ref l m).1 = none ↔
        ∃ o ∈ l, o.mol_id.1 ≠ ref.mol_id.1 ∧ sfn ref.mol_id o.mol_id < 0) := by
  intro l
  induction l with
  | nil =>
    intro _ m hmc
    refine ⟨hmc, ?_⟩
    simp [candidateScore]
  | cons o rest ih =>
    intro hl m hmc
    have ho : o ∈ box := hl o (List.mem_cons_self _ _)
    have hrest : ∀ x ∈ rest, x ∈ box := fun x hx => hl x (List.mem_cons_of_mem _ hx)
    by_cases hsame : ref.mol_id.1 = o.mol_id.1
    · rw [candidateScore, if_pos hsame]
      obtain ⟨hmc2, hiff⟩ := ih hrest m hmc
      refine ⟨hmc2, ?_⟩
      rw [hiff]
      constructor
      · rintro ⟨o2, ho2, h⟩
        exact ⟨o2, List.mem_cons_of_mem _ ho2, h⟩
      · rintro ⟨o2, ho2, hne, hneg⟩
        rcases List.mem_cons.mp ho2 with rfl | ho2'
        · exact absurd hsame.symm hne
        · exact ⟨o2, ho2', hne, hneg⟩
    · rw [candidateScore, if_neg hsame]
      have hkeyval : ∀ v, mlookup m (scoreKey ref.id o.id) = some v →
          v = sfn ref.mol_id o.mol_id :=
        fun v hv => hmc ref href o ho hsame v hv
      cases hml : mlookup m (scoreKey ref.id o.id) with
      | some s =>
        dsimp only
        have hval : s = sfn ref.mol_id o.mol_id := hkeyval s hml
        by_cases hs : s < 0
        · rw [if_pos hs]
          refine ⟨hmc, ?_⟩
          constructor
          · intro _
            exact ⟨o, List.mem_cons_self _ _, fun h => hsame h.symm, by rw [← hval]; exact hs⟩
          · intro _
            rfl
        · rw [if_neg hs]
          obtain ⟨hmc2, hiff⟩ := ih hrest m hmc
          rcases hrec : candidateScore sfn ref rest m with ⟨ores, m2⟩
          rw [hrec] at hmc2 hiff
          cases ores with
          | none =>
            dsimp only
            refine ⟨hmc2, ?_⟩
            dsimp only at hiff
            constructor
            · intro _
              obtain ⟨o2, ho2, h⟩ := hiff.mp rfl
              exact ⟨o2, List.mem_cons_of_mem _ ho2, h⟩
            · intro _
              rfl
          | some t =>
            dsimp only
            refine ⟨hmc2, ?_⟩
            dsimp only at hiff
            constructor
            · intro h
              exact absurd h (by simp)
            · rintro ⟨o2, ho2, hne, hneg⟩
              rcases List.mem_cons.mp ho2 with rfl | ho2'
              · rw [hval] at hs
                exact absurd hneg hs
              · exact absurd (hiff.mpr ⟨o2, ho2', hne, hneg⟩) (by simp)
      | none =>
        dsimp only
        have hmc' : MemoConsistent sfn box
            ((scoreKey ref.id o.id, sfn ref.mol_id o.mol_id) :: m) := by
          intro a ha b hb hab v hv
          rw [mlookup] at hv
          by_cases hk : scoreKey ref.id o.id = scoreKey a.id b.id
          · rw [if_pos hk] at hv
            injection hv with hv
            rcases scoreKey_cases _ _ _ _ hk with ⟨h1, h2⟩ | ⟨h1, h2⟩
            · have ha' := hinj ref href a ha h1
              have hb' := hinj o ho b hb h2
              rw [← hv, ← ha', ← hb']
            · have ha' := hinj ref href b hb h1
              have hb' := hinj o ho a ha h2
              rw [← hv, ← ha', ← hb']
              exact hsym _ _
          · rw [if_neg hk] at hv
            exact hmc a ha b hb hab v hv
        by_cases hs : sfn ref.mol_id o.mol_id < 0
        · rw [if_pos hs]
          refine ⟨hmc', ?_⟩
          constructor
          · intro _
            exact ⟨o, List.mem_cons_self _ _, fun h => hsame h.symm, hs⟩
          · intro _
            rfl
        · rw [if_neg hs]
          obtain ⟨hmc2, hiff⟩ := ih hrest _ hmc'
          rcases hrec : candidateScore sfn ref rest
              ((scoreKey ref.id o.id, sfn ref.mol_id o.mol_id) :: m) with ⟨ores, m2⟩
          rw [hrec] at hmc2 hiff
          cases ores with
          | none =>
            dsimp only
            refine ⟨hmc2, ?_⟩
            dsimp only at hiff
            constructor
            · intro _
              obtain ⟨o2, ho2, h⟩ := hiff.mp rfl
              exact ⟨o2, List.mem_cons_of_mem _ ho2, h⟩
            · intro _
              rfl
          | some t =>
            dsimp only
            refine ⟨hmc2, ?_⟩
            dsimp only at hiff
            constructor
            · intro h
              exact absurd h (by simp)
            · rintro ⟨o2, ho2, hne, hneg⟩
              rcases List.mem_cons.mp ho2 with rfl | ho2'
              · exact absurd hneg hs
              · exact absurd (hiff.mpr ⟨o2, ho2', hne, hneg⟩) (by simp)

theorem boxTopAux_spec (sfn : ℕ × ℕ → ℕ × ℕ → ℚ) (box : List KSubList)
    (hsym : ∀ a b, sfn a b = sfn b a)
    (hinj : ∀ a ∈ box, ∀ b ∈ box, a.id = b.id → a = b) :
    ∀ (cands : List KSubList), (∀ x ∈ cands, x ∈ box) →
    ∀ (m : Memo), MemoConsistent sfn box m →
    ∀ (best : Option (KSubList × ℚ)),
      (∀ r s, best = some (r, s) → r ∈ box ∧
        ¬∃ o ∈ box, o.mol_id.1 ≠ r.mol_id.1 ∧ sfn r.mol_id o.mol_id < 0) →
      ∀ r s, (boxTopAux sfn box cands m best).1 = some (r, s) → r ∈ box ∧
        ¬∃ o ∈ box, o.mol_id.1 ≠ r.mol_id.1 ∧ sfn r.mol_id o.mol_id < 0 := by
  intro cands
  induction cands with
  | nil =>
    intro _ m _ best hbest r s hres
    rw [boxTopAux] at hres
    exact hbest r s hres
  | cons ref rest ih =>
    intro hc m hmc best hbest r s hres
    have href : ref ∈ box := hc ref (List.mem_cons_self _ _)
    have hrest : ∀ x ∈ rest, x ∈ box := fun x hx => hc x (List.mem_cons_of_mem _ hx)
    obtain ⟨hmc2, hiff⟩ :=
      candidateScore_spec sfn box hsym hinj ref href box (fun x hx => hx) m hmc
    rw [boxTopAux] at hres
    rcases hcs : candidateScore sfn ref box m with ⟨ores, m2⟩
    rw [hcs] at hres hmc2 hiff
    cases ores with
    | none =>
      dsimp only at hres hmc2
      exact ih hrest m2 hmc2 best hbest r s hres
    | some t =>
      dsimp only at hres hmc2 hiff
      have hnotveto :
          ¬∃ o ∈ box, o.mol_id.1 ≠ ref.mol_id.1 ∧ sfn ref.mol_id o.mol_id < 0 := by
        intro hex
        exact absurd (hiff.mpr hex) (by simp)
      have hnew : ∀ r2 s2, (some (ref, t) : Option (KSubList × ℚ)) = some (r2, s2) →
          r2 ∈ box ∧
          ¬∃ o ∈ box, o.mol_id.1 ≠ r2.mol_id.1 ∧ sfn r2.mol_id o.mol_id < 0 := by
        intro r2 s2 h2
        injection h2 with h2
        rw [Prod.mk.injEq] at h2
        obtain ⟨h2a, _⟩ := h2
        rw [← h2a]
        exact ⟨href, hnotveto⟩
      cases best with
      | none =>
        exact ih hrest m2 hmc2 (some (ref, t)) hnew r s hres
      | some rs =>
        obtain ⟨r0, s0⟩ := rs
        dsimp only at hres
        by_cases hlt : s0 < t
        · rw [if_pos hlt] at hres
          exact ih hrest m2 hmc2 (some (ref, t)) hnew r s hres
        · rw [if_neg hlt] at hres
          exact ih hrest m2 hmc2 (some (r0, s0)) hbest r s hres

theorem boxTopAux_all_vetoed (sfn : ℕ × ℕ → ℕ × ℕ → ℚ) (box : List KSubList)
    (hsym : ∀ a b, sfn a b = sfn b a)
    (hinj : ∀ a ∈ box, ∀ b ∈ box, a.id = b.id → a = b) :
    ∀ (cands : List KSubList), (∀ x ∈ cands, x ∈ box) →
    ∀ (m : Memo), MemoConsistent sfn box m →
    ∀ (best : Option (KSubList × ℚ)),
      (∀ ref ∈ cands, ∃ o ∈ box, o.mol_id.1 ≠ ref.mol_id.1 ∧ sfn ref.mol_id o.mol_id < 0) →
      (boxTopAux sfn box cands m best).1 = best := by
  intro cands
  induction cands with
  | nil =>
    intro _ m _ best _
    rw [boxTopAux]
  | cons ref rest ih =>
    intro hc m hmc best hall
    have href : ref ∈ box := hc ref (List.mem_cons_self _ _)
    have hrest : ∀ x ∈ rest, x ∈ box := fun x hx => hc x (List.mem_cons_of_mem _ hx)
    obtain ⟨hmc2, hiff⟩ :=
      candidateScore_spec sfn box hsym hinj ref href box (fun x hx => hx) m hmc
    rw [boxTopAux]
    rcases hcs : candidateScore sfn ref box m with ⟨ores, m2⟩
    rw [hcs] at hmc2 hiff
    have hnone : ores = none := by
      have := hiff.mpr (hall ref (List.mem_cons_self _ _))
      simpa using this
    subst hnone
    dsimp only
    exact ih hrest m2 hmc2 best (fun x hx => hall x (List.mem_cons_of_mem _ hx))

/-- C3: a candidate reference with any negative pairwise score against a box
member of a different ligand is never selected as the box representative, and if
every candidate is excluded this way the operation returns no representative
(`none`, not an error).  Hypotheses: the scoring function is symmetric (true of
the RMSD-based score), box members have injective ids (they come from distinct
`KSubList.ID` values), and the memo is consistent with the scoring function
(true of the empty memo and preserved by the loop itself). -/
theorem claim_C3 (sfn : ℕ × ℕ → ℕ × ℕ → ℚ) (box : List KSubList) (m : Memo)
    (hsym : ∀ a b, sfn a b = sfn b a)
    (hinj : ∀ a ∈ box, ∀ b ∈ box, a.id = b.id → a = b)
    (hmc : MemoConsistent sfn box m) :
    (∀ ref ∈ box, (∃ o ∈ box, o.mol_id.1 ≠ ref.mol_id.1 ∧ sfn ref.mol_id o.mol_id < 0) →
      ∀ r m2, box_top_representative sfn box m = (some r, m2) → r.id ≠ ref.id) ∧
    ((∀ ref ∈ box, ∃ o ∈ box, o.mol_id.1 ≠ ref.mol_id.1 ∧ sfn ref.mol_id o.mol_id < 0) →
      (box_top_representative sfn box m).1 = none) := by
  constructor
  · intro ref href hveto r m2 hres
    rw [box_top_representative] at hres
    rcases haux : boxTopAux sfn box box m none with ⟨ores, m3⟩
    rw [haux] at hres
    cases ores with
    | none =>
      dsimp only at hres
      rw [Prod.mk.injEq] at hres
      exact absurd hres.1 (by simp)
    | some rs =>
      obtain ⟨r0, s0⟩ := rs
      dsimp only at hres
      rw [Prod.mk.injEq] at hres
      obtain ⟨hr, _⟩ := hres
      have hr0 := boxTopAux_spec sfn box hsym hinj box (fun x hx => hx) m hmc none
        (by rintro _ _ h; cases h) r0 s0 (by rw [haux])
      injection hr with hr
      rw [← hr]
      intro hid
      have hid' : r0.id = ref.id := hid
      have heq : r0 = ref := hinj r0 hr0.1 ref href hid'
      rw [heq] at hr0
      exact hr0.2 hveto
  · intro hall
    rw [box_top_representative]
    have h := boxTopAux_all_vetoed sfn box hsym hinj box (fun x hx => hx) m hmc none hall
    rcases haux : boxTopAux sfn box box m none with ⟨ores, m3⟩
    rw [haux] at h
    dsimp only at h
    subst h
    dsimp only

/-- The two-sublist, two-ligand box and the constantly negative scoring function
of the C3 witness. -/
def boxC3 : List KSubList :=
  [⟨[0], (0, 0), [0], 1, none⟩, ⟨[0], (1, 0), [0], 2, none⟩]

/-- A constant negative pairwise score. -/
def sfnNeg (a b : ℕ × ℕ) : ℚ := -1

theorem claim_C3_witness :
    (∀ ref ∈ boxC3, ∃ o ∈ boxC3, o.mol_id.1 ≠ ref.mol_id.1 ∧
      sfnNeg ref.mol_id o.mol_id < 0) ∧
    (box_top_representative sfnNeg boxC3 []).1 = none :=
  ⟨by decide,
   (claim_C3 sfnNeg boxC3 [] (fun _ _ => rfl) (by decide)
     (fun a _ b _ _ v hv => by simp [mlookup] at hv)).2 (by decide)⟩

/-! ## `find_common_pharmacophores` (C9) -/

/-- `ChemFeatContainer`: the chemical features of one conformer, by type (the
class lives in `openpharmacophore.molecular_systems.chem_feats`, absent from the
sources; these are the fields `FeatureList.from_chem_feats` reads). -/
structure ChemFeatContainer where
  acceptor : List Point
  donor : List Point
  hydrophobic : List Point
  negative : List Point
  positive : List Point
  aromatic : List Point
deriving DecidableEq, Inhabited

/-- Modelled from the spec: iterating a `ChemFeatContainer` (and its `len`) walks
the features in the fixed type order A, D, H, N, P, R used for the variant
string (the iteration protocol lives in the missing `chem_feats` module). -/
def cfcFeats (c : ChemFeatContainer) : List Point :=
  c.acceptor ++ c.donor ++ c.hydrophobic ++ c.negative ++ c.positive ++ c.aromatic

/-- `FeatureList.from_chem_feats`: variant string from the first conformer's
per-type counts; coordinates stacked per conformer into an array sized by the
first conformer (shorter conformers leave zero rows — the source assumes equal
composition across conformers); distances from `distance_vector`. -/
def from_chem_feats (pdist : Point → Point → ℚ)
    (chem_feats : List ChemFeatContainer) : FeatureList :=
  let c0 := chem_feats.headD default
  let variant :=
    List.replicate c0.acceptor.length 'A' ++ List.replicate c0.donor.length 'D' ++
    List.replicate c0.hydrophobic.length 'H' ++ List.replicate c0.negative.length 'N' ++
    List.replicate c0.positive.length 'P' ++ List.replicate c0.aromatic.length 'R'
  let n_feats := (cfcFeats c0).length
  let coords := chem_feats.map (fun c =>
    ((cfcFeats c).take n_feats) ++
      List.replicate (n_feats - (cfcFeats c).length) ((0 : ℚ), (0 : ℚ), (0 : ℚ)))
  ⟨variant, distance_vector pdist coords, coords⟩

/-- `CommonPharmacophoreFinder._get_feat_lists`. -/
def get_feat_lists (pdist : Point → Point → ℚ)
    (chem : List (List ChemFeatContainer)) : List FeatureList :=
  chem.map (from_chem_feats pdist)

/-- `CommonPharmacophoreFinder._variant_sublists`, threading the `KSubList.ID`
counter (reset to `1` at the start of `find_common_pharmacophores`). -/
def variant_sublists (flists : List FeatureList)
    (common : List (List Char × List KVariant)) : List (List Char × List KSubList) :=
  (common.foldl (fun (acc : List (List Char × List KSubList) × ℕ) p =>
    let pool := p.2.foldl (fun (q : List KSubList × ℕ) kv =>
      let fl := flists.getD kv.mol default
      (q.1 ++ fl.k_sublists kv q.2, q.2 + fl.distances.length)) ([], acc.2)
    (acc.1 ++ [(p.1, pool.1)], pool.2)) ([], 1)).1

/-- Modelled from the spec: a pharmacophore produced from a box representative —
a typed point set addressable by the originating (ligand, conformer); the
converter `_get_pharmacophores` is absent from the sources. -/
structure Pharmacophore where
  mol : ℕ
  conf : ℕ
  feat_ind : List ℕ
  score : Option ℚ
deriving DecidableEq

/-- Modelled from the spec: `PriorityQueue.push` (the class is an unimplemented
stub in the source, an open question of the spec); the queue collects the pushed
representatives. -/
def pqPush (queue : List KSubList) (x : KSubList) : List KSubList := queue ++ [x]

/-- Modelled from the spec: `_get_pharmacophores` (absent from the sources)
converts the queued representatives into pharmacophores, one per surviving box. -/
def get_pharmacophores (queue : List KSubList) : List Pharmacophore :=
  queue.map (fun s => ⟨s.mol_id.1, s.mol_id.2, s.feat_ind, s.score⟩)

/-- `CommonPharmacophoreFinder.find_common_pharmacophores`.  `pdist` is the
point-distance primitive from the missing maths module; `sfn` is
`self.scoring_fn` composed with the feature-list lookup
`feature_lists[mol_id[0]]`, receiving the two `(ligand, conformer)` pairs.
`max_pharmacophores` is accepted, but the stub `PriorityQueue` imposes no
ordering or cap (spec open question), so the queue keeps every pushed
representative. -/
def find_common_pharmacophores (pdist : Point → Point → ℚ)
    (sfn : ℕ × ℕ → ℕ × ℕ → ℚ) (bin_size max_dist : ℚ)
    (chem : List (List ChemFeatContainer)) (n_points : ℕ)
    (min_actives max_pharmacophores : Option ℕ) : List Pharmacophore :=
  let ma := min_actives.getD chem.length
  let feature_lists := get_feat_lists pdist chem
  let common := common_k_point_variants feature_lists n_points ma
  let sub_lists := variant_sublists feature_lists common
  let result := sub_lists.foldl (fun (acc : List KSubList × Memo) pool =>
    (recursive_partitioning bin_size max_dist pool.2 ma).foldl
      (fun (acc2 : List KSubList × Memo) box =>
        if 0 < box.length then
          match box_top_representative sfn box acc2.2 with
          | (some rep, m2) => (pqPush acc2.1 rep, m2)
          | (none, m2) => (acc2.1, m2)
        else acc2) acc) ([], [])
  get_pharmacophores result.1

/-- C9: calling `find_common_pharmacophores` with `min_actives` greater than the
number of ligands sharing any k-point variant returns an empty result set; the
embedded pipeline is a total function, so no exception is raised. -/
theorem claim_C9 (pdist : Point → Point → ℚ) (sfn : ℕ × ℕ → ℕ × ℕ → ℚ)
    (bs md : ℚ) (chem : List (List ChemFeatContainer)) (n_points ma : ℕ)
    (maxp : Option ℕ)
    (h : ∀ v ∈ allKVarStrings (get_feat_lists pdist chem) n_points,
      specLigCount (get_feat_lists pdist chem) n_points v < ma) :
    find_common_pharmacophores pdist sfn bs md chem n_points (some ma) maxp = [] := by
  have hcommon : common_k_point_variants (get_feat_lists pdist chem) n_points ma = [] := by
    rw [common_k_point_variants]
    rw [List.filter_eq_nil_iff]
    intro p hp
    have hnd : (keysOf (ligsLoop n_points 0 (get_feat_lists pdist chem) ⟨[], []⟩).kvars).Nodup :=
      ligsLoop_kvars_nodup _ _ _ _ (by simp [keysOf])
    have hlook : alookup (ligsLoop n_points 0 (get_feat_lists pdist chem) ⟨[], []⟩).kvars p.1
        = some p.2 := alookup_of_mem _ _ _ hnd hp
    rw [ligsLoop_kvars] at hlook
    have h0 : alookup (⟨[], []⟩ : VState).kvars p.1 = none := rfl
    rw [h0] at hlook
    have hocc : specOccsFrom n_points p.1 0 (get_feat_lists pdist chem) ≠ [] := by
      intro hnil
      rw [optApp, if_pos hnil] at hlook
      exact absurd hlook (by simp)
    have hmem := mem_allKVarStrings_of_specOccs n_points p.1 (get_feat_lists pdist chem) 0 hocc
    have hcnt := h p.1 hmem
    have hcount := vcount_final (get_feat_lists pdist chem) n_points p.1
    simp only [decide_eq_true_eq]
    rw [hcount]
    omega
  simp only [find_common_pharmacophores, Option.getD_some]
  rw [hcommon]
  rfl

/-- A two-ligand, one-conformer input for the C9 witness: ligand 0 has a single
acceptor, ligand 1 a single donor, so no 1-point variant is shared. -/
def chemC9 : List (List ChemFeatContainer) :=
  [[⟨[(0, 0, 0)], [], [], [], [], []⟩], [⟨[], [(0, 0, 0)], [], [], [], []⟩]]

/-- A trivial point-distance primitive for the C9 witness. -/
def pdist0 (p q : Point) : ℚ := 0

/-- A trivial scoring primitive for the C9 witness. -/
def sfn0 (a b : ℕ × ℕ) : ℚ := 0

theorem claim_C9_witness :
    (∀ v ∈ allKVarStrings (get_feat_lists pdist0 chemC9) 1,
      specLigCount (get_feat_lists pdist0 chemC9) 1 v < 2) ∧
    find_common_pharmacophores pdist0 sfn0 1 15 chemC9 1 (some 2) none = [] :=
  ⟨by decide, claim_C9 pdist0 sfn0 1 15 chemC9 1 2 none (by decide)⟩

end OpenPharm
